import Mathlib

/-!
Verification of the volumetric preprocessing pipeline in `src/preprocess.py`.

The embedding below translates the arithmetic and algorithmic content of the
source file.  Machine integers (`np.int16`) are modelled as `ℤ` with an
explicit two's-complement wrap `wrap16`; floating point slopes, intercepts and
spacings are modelled as exact rationals `ℚ`; numpy's cast of a float to an
integer type truncates toward zero (`truncQ`); `np.round` rounds half to even
(`roundHalfEven`).  Volumes are functions `ℕ × ℕ × ℕ → ℤ` together with a
`Shape` giving the bounds; all operations only inspect in-bounds voxels.

External library calls are embedded by their documented semantics:
* `skimage.measure.label(img, background=0, connectivity=c)` partitions the
  grid into maximal components of equal value connected under connectivity
  `c` (`c` orthogonal steps allowed per neighbor move; `c = 1` is
  6-connectivity in 3D, `c = 3` is full 26-connectivity, and the 2-D default
  is full 8-connectivity).  `labelOf` assigns each non-background voxel the
  canonical label `1 +` the minimal linear index of its component, and `0` to
  background voxels.  Only the induced partition (and which voxels are
  labelled `0`) matters to the program: labels are consumed solely through
  equality tests and occurrence counts.
* `scipy.ndimage.morphology.binary_closing(x, structure=ones(5,5,5))` is
  dilation followed by erosion, both with `border_value = 0` and the centered
  odd 5×5×5 window (offsets `-2..2` per axis).
* `scipy.ndimage.morphology.binary_dilation(x, structure=ones(10,10,10))`
  uses the mirrored even 10×10×10 window; its offset window contains `0` per
  axis (offsets `-4..5`).
* `np.unique(im, return_counts=True)` returns the distinct values in
  ascending order with their occurrence counts, and `np.argmax` returns the
  first index achieving the maximum.
-/

/-- Two's-complement wrap into the `int16` range `[-32768, 32767]`, the
behaviour of numpy `int16` arithmetic and of `astype(np.int16)` on
in-but-possibly-overflowing integer data. -/
def wrap16 (x : ℤ) : ℤ := (x + 32768) % 65536 - 32768

/-- Truncation of a rational toward zero: the C-style cast a numpy float64
array undergoes when assigned into an integer array. -/
def truncQ (q : ℚ) : ℤ := if 0 ≤ q then ⌊q⌋ else ⌈q⌉

/-- Round half to even, the semantics of `np.round`. -/
def roundHalfEven (q : ℚ) : ℤ :=
  if q - ⌊q⌋ < 1 / 2 then ⌊q⌋
  else if 1 / 2 < q - ⌊q⌋ then ⌊q⌋ + 1
  else if Even ⌊q⌋ then ⌊q⌋ else ⌊q⌋ + 1

/-- The error taxonomy named by the specification (section 7).  The source
contains no raise site for either error; the checked wrappers below therefore
always return `Except.ok`. -/
inductive PreprocessError where
  | nonPositiveSpacing
  | precisionOverflow
deriving DecidableEq

/-- Per-voxel transform of `get_pixels_hu` (src/preprocess.py lines 58-88).
Line 67 casts the stored value to `int16` (`wrap16 stored`).  Line 82
multiplies by the slope in float64, and the assignment back into the `int16`
array truncates toward zero and wraps (line 83's second `astype` is then the
identity).  Line 86 adds `np.int16(intercept)` with `int16` wraparound. -/
def get_pixels_hu_voxel (slope intercept : ℚ) (stored : ℤ) : ℤ :=
  wrap16 (wrap16 (truncQ (slope * ((wrap16 stored : ℤ) : ℚ))) +
    wrap16 (truncQ intercept))

/-- The conversion as a fallible operation.  `get_pixels_hu` has no overflow
check and no raise statement, so the result is always `Except.ok`. -/
def get_pixels_hu_checked (slope intercept : ℚ) (stored : ℤ) :
    Except PreprocessError ℤ :=
  Except.ok (get_pixels_hu_voxel slope intercept stored)

/-- One axis of `resample` (src/preprocess.py lines 91-118, line 107):
`new_shape = np.round(image.shape * (spacing / new_spacing))`. -/
def resample_new_shape (sh : ℕ) (orig target : ℚ) : ℤ :=
  roundHalfEven ((sh : ℚ) * (orig / target))

/-- One axis of line 110: `real_resize_factor = new_shape / image.shape`. -/
def resample_real_resize_factor (sh : ℕ) (orig target : ℚ) : ℚ :=
  (resample_new_shape sh orig target : ℚ) / (sh : ℚ)

/-- One axis of line 113: `new_spacing = spacing / real_resize_factor`. -/
def resample_achieved_spacing (sh : ℕ) (orig target : ℚ) : ℚ :=
  orig / resample_real_resize_factor sh orig target

/-- The shape/spacing computation of `resample` on all three axes, as a
fallible operation.  The source performs no validation of the spacing values
and contains no raise site, so every input produces `Except.ok`. -/
def resample_checked (sh : ℕ × ℕ × ℕ) (orig target : ℚ × ℚ × ℚ) :
    Except PreprocessError ((ℤ × ℤ × ℤ) × (ℚ × ℚ × ℚ)) :=
  Except.ok
    ((resample_new_shape sh.1 orig.1 target.1,
      resample_new_shape sh.2.1 orig.2.1 target.2.1,
      resample_new_shape sh.2.2 orig.2.2 target.2.2),
     (resample_achieved_spacing sh.1 orig.1 target.1,
      resample_achieved_spacing sh.2.1 orig.2.1 target.2.1,
      resample_achieved_spacing sh.2.2 orig.2.2 target.2.2))

/-- Per-voxel `normalize` (src/preprocess.py lines 235-247): affine map, then
the two masked assignments `image[image > 1] = 1` and `image[image < 0] = 0`.
(Named `normalize_image` because `normalize` is taken by the library.) -/
def normalize_image (x minBound maxBound : ℚ) : ℚ :=
  let y := (x - minBound) / (maxBound - minBound)
  let y1 := if 1 < y then 1 else y
  if y1 < 0 then 0 else y1

/-- Values of `np.unique(l)`: the distinct values in ascending order. -/
def uniqueVals (l : List ℤ) : List ℤ := l.toFinset.sort (· ≤ ·)

/-- Value/count pairs of `np.unique(l, return_counts=True)`. -/
def uniqueCounts (l : List ℤ) : List (ℤ × ℕ) :=
  (uniqueVals l).map (fun v => (v, l.count v))

/-- First maximum of a list of value/count pairs by count (`np.argmax` keeps
the first index achieving the maximum). -/
def argmaxFirst : List (ℤ × ℕ) → Option (ℤ × ℕ)
  | [] => none
  | p :: rest =>
    match argmaxFirst rest with
    | none => some p
    | some q => if p.2 < q.2 then some q else some p

/-- `largest_label_volume` (src/preprocess.py lines 151-170): unique values
with counts, drop the background value, return the value with the most
occurrences (`None` when everything is background). -/
def largest_label_volume (l : List ℤ) (bg : ℤ) : Option ℤ :=
  (argmaxFirst ((uniqueCounts l).filter (fun p => p.1 ≠ bg))).map Prod.fst

/-- A voxel coordinate. -/
abbrev Vox := ℕ × ℕ × ℕ

/-- Grid dimensions of a volume. -/
structure Shape where
  n0 : ℕ
  n1 : ℕ
  n2 : ℕ

/-- The in-bounds voxels of a shape. -/
def cells (s : Shape) : Finset Vox :=
  Finset.range s.n0 ×ˢ (Finset.range s.n1 ×ˢ Finset.range s.n2)

/-- The in-bounds voxels in row-major order (numpy flattening order; only the
multiset of values matters to `largest_label_volume`). -/
def cellsList (s : Shape) : List Vox :=
  (List.range s.n0).flatMap fun i =>
    (List.range s.n1).flatMap fun j =>
      (List.range s.n2).map fun k => (i, j, k)

/-- Row-major flattening of a volume. -/
def flattenVol (s : Shape) (f : Vox → ℤ) : List ℤ := (cellsList s).map f

/-- Row-major linear index of a voxel. -/
def linIdx (s : Shape) (v : Vox) : ℕ := (v.1 * s.n1 + v.2.1) * s.n2 + v.2.2

/-- Number of coordinates in which two voxels differ. -/
def diffCount (a b : Vox) : ℕ :=
  (if a.1 = b.1 then 0 else 1) + (if a.2.1 = b.2.1 then 0 else 1) +
    (if a.2.2 = b.2.2 then 0 else 1)

/-- Neighborhood relation of `skimage.measure.label` at connectivity `conn`:
two distinct in-bounds voxels each of whose coordinates differ by at most 1,
differing in at most `conn` coordinates (`conn = 1`: 6-connectivity,
`conn = 2`: 18- (or in 2-D, 8-) connectivity, `conn = 3`: 26-connectivity). -/
def adjC (s : Shape) (conn : ℕ) (a b : Vox) : Prop :=
  a ∈ cells s ∧ b ∈ cells s ∧
    Nat.dist a.1 b.1 ≤ 1 ∧ Nat.dist a.2.1 b.2.1 ≤ 1 ∧ Nat.dist a.2.2 b.2.2 ≤ 1 ∧
    1 ≤ diffCount a b ∧ diffCount a b ≤ conn

instance (s : Shape) (conn : ℕ) : DecidableRel (adjC s conn) := fun _ _ => by
  unfold adjC; infer_instance

/-- Neighborhood restricted to equal voxel values: the edge relation whose
connected components `measure.label` computes. -/
def adjV (s : Shape) (conn : ℕ) (f : Vox → ℤ) (a b : Vox) : Prop :=
  adjC s conn a b ∧ f a = f b

instance (s : Shape) (conn : ℕ) (f : Vox → ℤ) : DecidableRel (adjV s conn f) :=
  fun _ _ => by unfold adjV; infer_instance

/-- One saturation step of reachability: add every in-bounds voxel adjacent
(with equal value) to the current set. -/
def stepReach (s : Shape) (conn : ℕ) (f : Vox → ℤ) (S : Finset Vox) : Finset Vox :=
  S ∪ (cells s).filter (fun b => ∃ a ∈ S, adjV s conn f a b)

/-- The connected component of `v` (as a computed fixpoint of `stepReach`). -/
def reach (s : Shape) (conn : ℕ) (f : Vox → ℤ) (v : Vox) : Finset Vox :=
  (stepReach s conn f)^[(cells s).card + 1] {v}

/-- Embedding of `skimage.measure.label(f, background=bg, connectivity=conn)`:
background voxels (and out-of-bounds voxels) get label 0; every other voxel
gets `1 +` the least linear index occurring in its connected component, a
canonical labeling inducing the same partition as the library's. -/
def labelOf (s : Shape) (conn : ℕ) (bg : ℤ) (f : Vox → ℤ) (v : Vox) : ℕ :=
  if v ∈ cells s ∧ f v ≠ bg then
    1 + (reach s conn f v).fold min (linIdx s v) (linIdx s)
  else 0

/-- Thresholding step of `segment_lung_mask` (line 182): air (≤ -320) ↦ 0,
tissue (> -320) ↦ 1, here as a boolean. -/
def bthresh (f : Vox → ℤ) (v : Vox) : Bool := decide (-320 < f v)

/-- Cubic window of integer offsets `lo..hi` on each axis. -/
def offsets (lo hi : ℤ) : Finset (ℤ × ℤ × ℤ) :=
  Finset.Icc lo hi ×ˢ (Finset.Icc lo hi ×ˢ Finset.Icc lo hi)

/-- Offset a voxel, returning `none` when the result leaves the grid. -/
def addOff (s : Shape) (v : Vox) (d : ℤ × ℤ × ℤ) : Option Vox :=
  let x := (v.1 : ℤ) + d.1
  let y := (v.2.1 : ℤ) + d.2.1
  let z := (v.2.2 : ℤ) + d.2.2
  if 0 ≤ x ∧ x < s.n0 ∧ 0 ≤ y ∧ y < s.n1 ∧ 0 ≤ z ∧ z < s.n2 then
    some (x.toNat, y.toNat, z.toNat)
  else none

/-- Binary dilation with `border_value = 0`: a voxel is set when some window
position lands in bounds on a set voxel. -/
def bdilate (s : Shape) (lo hi : ℤ) (m : Vox → Bool) (v : Vox) : Bool :=
  decide (∃ d ∈ offsets lo hi, ((addOff s v d).map m).getD false = true)

/-- Binary erosion with `border_value = 0`: a voxel survives only when every
window position lands in bounds on a set voxel. -/
def berode (s : Shape) (lo hi : ℤ) (m : Vox → Bool) (v : Vox) : Bool :=
  decide (∀ d ∈ offsets lo hi, ((addOff s v d).map m).getD false = true)

/-- `binary_closing(x, structure=np.ones([5,5,5]))` (line 185): dilation then
erosion with the centered 5×5×5 window and `border_value = 0`. -/
def bclosing (s : Shape) (m : Vox → Bool) : Vox → Bool :=
  berode s (-2) 2 (bdilate s (-2) 2 m)

/-- Lines 182-185: threshold, close, then add 1, giving values in `{1, 2}`
(1 = air, 2 = tissue). -/
def binImage (s : Shape) (f : Vox → ℤ) (v : Vox) : ℤ :=
  (if bclosing s (bthresh f) v then 1 else 0) + 1

/-- Line 188: `measure.label(binary_image, connectivity=1)` — 6-connectivity,
default background 0 (no voxel of `binImage` is 0). -/
def labelPost (s : Shape) (g : Vox → ℤ) : Vox → ℕ := labelOf s 1 0 g

/-- Line 194: the label of the corner voxel `labels[0, 0, 0]`. -/
def backgroundLabel (s : Shape) (f : Vox → ℤ) : ℕ :=
  labelPost s (binImage s f) (0, 0, 0)

/-- Line 197: `binary_image[background_label == labels] = 2`. -/
def markedImage (s : Shape) (f : Vox → ℤ) (v : Vox) : ℤ :=
  if labelPost s (binImage s f) v = backgroundLabel s f then 2
  else binImage s f v

/-- Shape of one axial slice viewed as a (1, n1, n2) volume. -/
def sliceShape (s : Shape) : Shape := ⟨1, s.n1, s.n2⟩

/-- Line 207: `axial_slice = axial_slice - 1` for slice `i`. -/
def sliceVol (g : Vox → ℤ) (i : ℕ) (v : Vox) : ℤ := g (i, v.2.1, v.2.2) - 1

/-- Line 210: `measure.label(axial_slice)` — the 2-D default connectivity is
full (8-connectivity), embedded as connectivity 2 on a single-slice volume;
default background 0. -/
def sliceLabels (s : Shape) (f : Vox → ℤ) (i : ℕ) : Vox → ℕ :=
  labelOf (sliceShape s) 2 0 (sliceVol (markedImage s f) i)

/-- Line 213: `largest_label_volume(labeling, bg=0)` for slice `i`. -/
def sliceLmax (s : Shape) (f : Vox → ℤ) (i : ℕ) : Option ℤ :=
  largest_label_volume
    (flattenVol (sliceShape s) (fun v => (sliceLabels s f i v : ℤ))) 0

/-- Lines 201-217: the optional fill pass, slice by slice; voxels outside the
largest in-slice nonzero component are set to 1. -/
def filledImage (s : Shape) (f : Vox → ℤ) (fill : Bool) (v : Vox) : ℤ :=
  if fill then
    (sliceLmax s f v.1).elim (markedImage s f v) fun L =>
      if (sliceLabels s f v.1 (0, v.2.1, v.2.2) : ℤ) ≠ L then 1
      else markedImage s f v
  else markedImage s f v

/-- Lines 220-221: `binary_image -= 1` then `binary_image = 1 - binary_image`,
i.e. `x ↦ 2 - x`. -/
def binarized (s : Shape) (f : Vox → ℤ) (fill : Bool) (v : Vox) : ℤ :=
  2 - filledImage s f fill v

/-- Line 224: `measure.label(binary_image, background=0)` — the connectivity
argument is omitted, so the 3-D default full 26-connectivity applies. -/
def labelGlobal (s : Shape) (g : Vox → ℤ) : Vox → ℕ := labelOf s 3 0 g

/-- Line 225: `largest_label_volume(labels, bg=0)` over the whole volume. -/
def globalLmax (s : Shape) (f : Vox → ℤ) (fill : Bool) : Option ℤ :=
  largest_label_volume
    (flattenVol s (fun v => (labelGlobal s (binarized s f fill) v : ℤ))) 0

/-- Lines 224-227: keep only the largest global component (when one exists). -/
def slmCandidate (s : Shape) (f : Vox → ℤ) (fill : Bool) (v : Vox) : ℤ :=
  (globalLmax s f fill).elim (binarized s f fill v) fun L =>
    if (labelGlobal s (binarized s f fill) v : ℤ) ≠ L then 0
    else binarized s f fill v

/-- Lines 229-232: final `binary_dilation` with `np.ones([10,10,10])` (even
window, offsets -4..5 per axis) of the candidate region, the returned mask. -/
def segment_lung_mask (s : Shape) (f : Vox → ℤ) (fill : Bool) : Vox → Bool :=
  bdilate s (-4) 5 (fun v => decide (slmCandidate s f fill v ≠ 0))

/-- Count of positive voxels of a boolean mask. -/
def countPositive (s : Shape) (m : Vox → Bool) : ℕ :=
  ((cells s).filter (fun v => m v = true)).card

theorem wrap16_eq_self {x : ℤ} (h1 : -32768 ≤ x) (h2 : x ≤ 32767) :
    wrap16 x = x := by
  unfold wrap16
  omega

theorem wrap16_range (x : ℤ) : -32768 ≤ wrap16 x ∧ wrap16 x ≤ 32767 := by
  unfold wrap16
  constructor <;> omega

theorem wrap16_add_wrap (x y : ℤ) :
    wrap16 (wrap16 x + wrap16 y) = wrap16 (x + y) := by
  unfold wrap16
  omega

theorem wrap16_wrap (x : ℤ) : wrap16 (wrap16 x) = wrap16 x := by
  unfold wrap16
  omega

theorem truncQ_intCast (n : ℤ) : truncQ (n : ℚ) = n := by
  unfold truncQ
  split <;> simp

theorem get_pixels_hu_voxel_int (a b p : ℤ) :
    get_pixels_hu_voxel (a : ℚ) (b : ℚ) p = wrap16 (a * wrap16 p + b) := by
  unfold get_pixels_hu_voxel
  have h1 : (a : ℚ) * ((wrap16 p : ℤ) : ℚ) = ((a * wrap16 p : ℤ) : ℚ) := by
    push_cast; ring
  rw [h1, truncQ_intCast, truncQ_intCast, wrap16_add_wrap]

theorem wrap16_three : wrap16 3 = 3 := by norm_num [wrap16]

/-- C2 (counterexample): the conversion does not round once at the end.  With
slope 1/2, intercept 0 and stored value 3 the code truncates `1.5` to `1`
before adding the intercept, while `round(value * slope + intercept) = 2`. -/
theorem c2_counterexample :
    get_pixels_hu_voxel (1 / 2) 0 3 = 1 ∧
      round ((1 / 2 : ℚ) * ((wrap16 3 : ℤ) : ℚ) + 0) = 2 := by
  have hmul : (1 / 2 : ℚ) * ((wrap16 3 : ℤ) : ℚ) = 3 / 2 := by
    rw [wrap16_three]; norm_num
  have hfl : ⌊(3 / 2 : ℚ)⌋ = 1 := by
    rw [Int.floor_eq_iff]; constructor <;> norm_num
  constructor
  · unfold get_pixels_hu_voxel
    rw [hmul]
    have ht : truncQ (3 / 2) = 1 := by
      unfold truncQ
      rw [if_pos (by norm_num), hfl]
    have ht0 : truncQ 0 = 0 := by
      unfold truncQ
      rw [if_pos le_rfl]
      norm_num
    rw [ht, ht0]
    norm_num [wrap16]
  · rw [hmul]
    rw [round_eq]
    have h2 : (3 / 2 : ℚ) + 0 + 1 / 2 = 2 := by norm_num
    rw [h2, Int.floor_eq_iff]
    constructor <;> norm_num

/-- C2 (amended): the code truncates `value * slope` to `int16` before adding
the intercept, so the round-last description only holds when no rounding was
needed: for integer slope and intercept with the products in `int16` range,
the result equals `round(value * slope + intercept)` exactly (the `value`
being the stored value after the initial `int16` cast of line 67). -/
theorem c2_amended_integral_slope (a b p : ℤ)
    (ha1 : -32768 ≤ a * wrap16 p) (ha2 : a * wrap16 p ≤ 32767)
    (hs1 : -32768 ≤ a * wrap16 p + b) (hs2 : a * wrap16 p + b ≤ 32767) :
    get_pixels_hu_voxel (a : ℚ) (b : ℚ) p =
      round ((a : ℚ) * ((wrap16 p : ℤ) : ℚ) + (b : ℚ)) := by
  rw [get_pixels_hu_voxel_int]
  have h1 : (a : ℚ) * ((wrap16 p : ℤ) : ℚ) + (b : ℚ) =
      ((a * wrap16 p + b : ℤ) : ℚ) := by push_cast; ring
  rw [h1, round_intCast, wrap16_eq_self hs1 hs2]

theorem c2_witness :
    (-32768 ≤ (1 : ℤ) * wrap16 100) ∧ ((1 : ℤ) * wrap16 100 ≤ 32767) ∧
      (-32768 ≤ (1 : ℤ) * wrap16 100 + -1024) ∧
      ((1 : ℤ) * wrap16 100 + -1024 ≤ 32767) ∧
      get_pixels_hu_voxel ((1 : ℤ) : ℚ) ((-1024 : ℤ) : ℚ) 100 =
        round (((1 : ℤ) : ℚ) * ((wrap16 100 : ℤ) : ℚ) + ((-1024 : ℤ) : ℚ)) :=
  ⟨by decide, by decide, by decide, by decide,
    c2_amended_integral_slope 1 (-1024) 100 (by decide) (by decide)
      (by decide) (by decide)⟩

/-- C8 (counterexample): with stored value 30000, slope 1, intercept 10000 the
rescaled value is 40000, above the `int16` maximum 32767, yet the conversion
returns `Except.ok` of the wrapped value -25536 instead of failing with
`PrecisionOverflowError`. -/
theorem c8_counterexample :
    (1 : ℚ) * ((wrap16 30000 : ℤ) : ℚ) + 10000 = 40000 ∧
      (32767 : ℤ) < 40000 ∧
      get_pixels_hu_checked 1 10000 30000 = Except.ok (-25536) := by
  have hval : get_pixels_hu_voxel ((1 : ℤ) : ℚ) ((10000 : ℤ) : ℚ) 30000 =
      wrap16 (1 * wrap16 30000 + 10000) := get_pixels_hu_voxel_int 1 10000 30000
  refine ⟨by norm_num [wrap16], by norm_num, ?_⟩
  unfold get_pixels_hu_checked
  have hcast : ((1 : ℤ) : ℚ) = (1 : ℚ) ∧ ((10000 : ℤ) : ℚ) = (10000 : ℚ) := by
    norm_num
  rw [← hcast.1, ← hcast.2, hval]
  norm_num [wrap16]

/-- C8 (amended): `get_pixels_hu` performs no overflow check and never fails;
every result is wrapped into the `int16` range modulo 2^16, and for integer
slope and intercept it equals the two's-complement wrap of
`slope * stored + intercept`. -/
theorem c8_amended_wraps :
    (∀ (sl ic : ℚ) (p : ℤ),
        get_pixels_hu_checked sl ic p = Except.ok (get_pixels_hu_voxel sl ic p) ∧
        -32768 ≤ get_pixels_hu_voxel sl ic p ∧
        get_pixels_hu_voxel sl ic p ≤ 32767) ∧
    ∀ (a b p : ℤ),
        get_pixels_hu_voxel (a : ℚ) (b : ℚ) p = wrap16 (a * wrap16 p + b) := by
  constructor
  · intro sl ic p
    refine ⟨rfl, ?_, ?_⟩
    · exact (wrap16_range _).1
    · exact (wrap16_range _).2
  · exact get_pixels_hu_voxel_int

theorem normalize_image_eq_clamp (x minBound maxBound : ℚ) :
    normalize_image x minBound maxBound =
      max 0 (min 1 ((x - minBound) / (maxBound - minBound))) := by
  simp only [normalize_image]
  set y := (x - minBound) / (maxBound - minBound) with hy
  split_ifs with h1 h2 h3
  · exact absurd h2 (by norm_num)
  · rw [min_eq_left h1.le, max_eq_right zero_le_one]
  · rw [min_eq_right (not_lt.mp h1), max_eq_left h3.le]
  · rw [min_eq_right (not_lt.mp h1), max_eq_right (not_lt.mp h3)]

/-- C9: with bounds -1000 and 400, `normalize` is the affine map
`(x - min) / (max - min)` clamped to `[0, 1]`; in particular it maps -1000 to
0, 400 to 1, 1000 to 1, -2000 to 0, and every output lies in `[0, 1]`. -/
theorem c9_normalize_clamped :
    (∀ x : ℚ, normalize_image x (-1000) 400 =
        max 0 (min 1 ((x - -1000) / (400 - -1000)))) ∧
    normalize_image (-1000) (-1000) 400 = 0 ∧
    normalize_image 400 (-1000) 400 = 1 ∧
    normalize_image 1000 (-1000) 400 = 1 ∧
    normalize_image (-2000) (-1000) 400 = 0 ∧
    ∀ x : ℚ, 0 ≤ normalize_image x (-1000) 400 ∧
      normalize_image x (-1000) 400 ≤ 1 := by
  have hb : ∀ x : ℚ, normalize_image x (-1000) 400 =
      max 0 (min 1 ((x - -1000) / (400 - -1000))) := fun x =>
    normalize_image_eq_clamp x (-1000) 400
  refine ⟨hb, ?_, ?_, ?_, ?_, fun x => ?_⟩
  · rw [hb]; norm_num
  · rw [hb]; norm_num
  · rw [hb]; norm_num
  · rw [hb]; norm_num
  · rw [hb]
    constructor
    · exact le_max_left _ _
    · exact max_le (by norm_num) (min_le_left _ _)

theorem roundHalfEven_intCast (n : ℤ) : roundHalfEven (n : ℚ) = n := by
  unfold roundHalfEven
  rw [Int.floor_intCast]
  norm_num

theorem roundHalfEven_nonpos {q : ℚ} (h : q ≤ 0) : roundHalfEven q ≤ 0 := by
  unfold roundHalfEven
  have hf : (⌊q⌋ : ℚ) ≤ q := Int.floor_le q
  have hf0 : ⌊q⌋ ≤ 0 := by
    have h2 := Int.floor_le_floor h
    simpa using h2
  split_ifs with h1 h2 h3
  · exact hf0
  · have hne : ⌊q⌋ ≠ 0 := by
      intro h0
      rw [h0] at h2
      push_cast at h2
      linarith
    omega
  · exact hf0
  · have hne : ⌊q⌋ ≠ 0 := by
      intro h0
      exact h3 (h0 ▸ even_zero)
    omega

/-- C3 (counterexample): with shape 1, original spacing 1 and target spacing 3
(all strictly positive), the rounded new shape is 0, the achieved spacing
comes from a division by zero (numpy produces `inf`; in the exact model the
convention gives 0), and the claimed sub-voxel extent bound fails. -/
theorem c3_counterexample :
    resample_new_shape 1 1 3 = 0 ∧
      ¬ |(resample_new_shape 1 1 3 : ℚ) * resample_achieved_spacing 1 1 3 -
            (1 : ℚ) * 1| ≤ resample_achieved_spacing 1 1 3 := by
  have harg : ((1 : ℕ) : ℚ) * ((1 : ℚ) / 3) = 1 / 3 := by norm_num
  have hfl : ⌊(1 / 3 : ℚ)⌋ = 0 := by
    rw [Int.floor_eq_iff]
    constructor <;> norm_num
  have h0 : resample_new_shape 1 1 3 = 0 := by
    unfold resample_new_shape roundHalfEven
    rw [harg, hfl]
    rw [if_pos (by norm_num)]
  refine ⟨h0, ?_⟩
  unfold resample_achieved_spacing resample_real_resize_factor
  rw [h0]
  norm_num

/-- C3 (amended): on every axis whose rounded new shape is at least 1 (which
fails only in the degenerate case `shape * orig / target < 1/2`), the achieved
spacing satisfies the sub-voxel extent bound exactly:
`new_shape * achieved_spacing = shape * orig`, so the difference is 0 and in
particular is at most the (positive) achieved spacing. -/
theorem c3_amended_extent_bound (sh : ℕ) (orig target : ℚ)
    (hsh : 0 < sh) (horig : 0 < orig) (htarget : 0 < target)
    (hns : 1 ≤ resample_new_shape sh orig target) :
    |(resample_new_shape sh orig target : ℚ) *
        resample_achieved_spacing sh orig target - (sh : ℚ) * orig| ≤
      resample_achieved_spacing sh orig target := by
  have hshQ : (0 : ℚ) < (sh : ℚ) := by exact_mod_cast hsh
  have hnsQ : (0 : ℚ) < (resample_new_shape sh orig target : ℚ) := by
    exact_mod_cast hns
  have hach : resample_achieved_spacing sh orig target =
      orig * (sh : ℚ) / (resample_new_shape sh orig target : ℚ) := by
    unfold resample_achieved_spacing resample_real_resize_factor
    field_simp
  have hzero : (resample_new_shape sh orig target : ℚ) *
      resample_achieved_spacing sh orig target - (sh : ℚ) * orig = 0 := by
    rw [hach]
    field_simp
    ring
  rw [hzero]
  rw [hach]
  simp only [abs_zero]
  positivity

theorem resample_new_shape_ten_two_one : resample_new_shape 10 2 1 = 20 := by
  unfold resample_new_shape
  have h1 : ((10 : ℕ) : ℚ) * ((2 : ℚ) / 1) = ((20 : ℤ) : ℚ) := by norm_num
  rw [h1, roundHalfEven_intCast]

theorem c3_witness :
    (0 < 10) ∧ ((0 : ℚ) < 2) ∧ ((0 : ℚ) < 1) ∧
      (1 ≤ resample_new_shape 10 2 1) ∧
      |(resample_new_shape 10 2 1 : ℚ) * resample_achieved_spacing 10 2 1 -
          ((10 : ℕ) : ℚ) * 2| ≤ resample_achieved_spacing 10 2 1 :=
  ⟨by norm_num, by norm_num, by norm_num,
    by rw [resample_new_shape_ten_two_one]; norm_num,
    c3_amended_extent_bound 10 2 1 (by norm_num) (by norm_num) (by norm_num)
      (by rw [resample_new_shape_ten_two_one]; norm_num)⟩

/-- C7 (counterexample): with target spacing (-1, 1, 1), which has a
non-positive component, `resample` does not fail with
`NonPositiveSpacingError`: the shape/spacing computation performs no
validation and returns an `Except.ok` result, whose first axis has a
negative new shape of -4. -/
theorem c7_counterexample :
    ((-1 : ℚ) ≤ 0) ∧
      (∃ r, resample_checked (4, 4, 4) (1, 1, 1) (-1, 1, 1) = Except.ok r) ∧
      resample_new_shape 4 1 (-1) = -4 := by
  refine ⟨by norm_num, ⟨_, rfl⟩, ?_⟩
  unfold resample_new_shape
  have h1 : ((4 : ℕ) : ℚ) * ((1 : ℚ) / (-1)) = ((-4 : ℤ) : ℚ) := by norm_num
  rw [h1, roundHalfEven_intCast]

/-- C7 (amended): `resample` contains no spacing validation and no
`NonPositiveSpacingError` raise site; every input (including non-positive
spacings) yields `Except.ok`, and a negative target spacing component flows
through the arithmetic producing a non-positive rounded new shape on that
axis (which makes the downstream zoom call fail with a generic library error,
not a typed spacing error). -/
theorem c7_amended_no_validation (sh : ℕ × ℕ × ℕ) (orig target : ℚ × ℚ × ℚ)
    (ht : target.1 < 0) (ho : 0 < orig.1) :
    (∃ r, resample_checked sh orig target = Except.ok r) ∧
      resample_new_shape sh.1 orig.1 target.1 ≤ 0 := by
  refine ⟨⟨_, rfl⟩, ?_⟩
  unfold resample_new_shape
  apply roundHalfEven_nonpos
  apply mul_nonpos_of_nonneg_of_nonpos
  · positivity
  · exact le_of_lt (div_neg_of_pos_of_neg ho ht)

theorem c7_witness :
    ((-1 : ℚ) < 0) ∧ ((0 : ℚ) < 1) ∧
      ((∃ r, resample_checked (4, 4, 4) (1, 1, 1) (-1, 2, 2) = Except.ok r) ∧
        resample_new_shape 4 1 (-1) ≤ 0) :=
  ⟨by norm_num, by norm_num,
    c7_amended_no_validation (4, 4, 4) (1, 1, 1) (-1, 2, 2) (by norm_num)
      (by norm_num)⟩


theorem argmaxFirst_cons_none {p : ℤ × ℕ} {rest : List (ℤ × ℕ)}
    (hr : argmaxFirst rest = none) : argmaxFirst (p :: rest) = some p := by
  simp [argmaxFirst, hr]

theorem argmaxFirst_cons_some {p q : ℤ × ℕ} {rest : List (ℤ × ℕ)}
    (hr : argmaxFirst rest = some q) :
    argmaxFirst (p :: rest) = if p.2 < q.2 then some q else some p := by
  simp [argmaxFirst, hr]

theorem argmaxFirst_eq_none {l : List (ℤ × ℕ)} : argmaxFirst l = none ↔ l = [] := by
  cases l with
  | nil => simp [argmaxFirst]
  | cons p rest =>
    cases hr : argmaxFirst rest with
    | none => rw [argmaxFirst_cons_none hr]; simp
    | some r => rw [argmaxFirst_cons_some hr]; split_ifs <;> simp

theorem argmaxFirst_mem : ∀ {l : List (ℤ × ℕ)} {q : ℤ × ℕ},
    argmaxFirst l = some q → q ∈ l := by
  intro l
  induction l with
  | nil => intro q h; simp [argmaxFirst] at h
  | cons p rest ih =>
    intro q h
    cases hr : argmaxFirst rest with
    | none =>
      rw [argmaxFirst_cons_none hr] at h
      simp only [Option.some.injEq] at h
      exact List.mem_cons.mpr (Or.inl h.symm)
    | some r =>
      rw [argmaxFirst_cons_some hr] at h
      by_cases hc : p.2 < r.2
      · rw [if_pos hc] at h
        simp only [Option.some.injEq] at h
        exact List.mem_cons.mpr (Or.inr (h ▸ ih hr))
      · rw [if_neg hc] at h
        simp only [Option.some.injEq] at h
        exact List.mem_cons.mpr (Or.inl h.symm)

theorem argmaxFirst_max : ∀ {l : List (ℤ × ℕ)} {q : ℤ × ℕ},
    argmaxFirst l = some q → ∀ p ∈ l, p.2 ≤ q.2 := by
  intro l
  induction l with
  | nil => intro q h; simp [argmaxFirst] at h
  | cons p rest ih =>
    intro q h x hx
    rcases List.mem_cons.mp hx with hxp | hxr
    · cases hr : argmaxFirst rest with
      | none =>
        rw [argmaxFirst_cons_none hr] at h
        simp only [Option.some.injEq] at h
        rw [hxp, ← h]
      | some r =>
        rw [argmaxFirst_cons_some hr] at h
        by_cases hc : p.2 < r.2
        · rw [if_pos hc] at h
          simp only [Option.some.injEq] at h
          rw [hxp, ← h]
          exact le_of_lt hc
        · rw [if_neg hc] at h
          simp only [Option.some.injEq] at h
          rw [hxp, ← h]
    · cases hr : argmaxFirst rest with
      | none =>
        rw [argmaxFirst_eq_none.mp hr] at hxr
        simp at hxr
      | some r =>
        rw [argmaxFirst_cons_some hr] at h
        by_cases hc : p.2 < r.2
        · rw [if_pos hc] at h
          simp only [Option.some.injEq] at h
          exact h ▸ ih hr x hxr
        · rw [if_neg hc] at h
          simp only [Option.some.injEq] at h
          have h1 := ih hr x hxr
          rw [← h]
          exact le_trans h1 (not_lt.mp hc)

theorem argmaxFirst_first : ∀ {l : List (ℤ × ℕ)} {q : ℤ × ℕ},
    l.Pairwise (fun a b => a.1 < b.1) → argmaxFirst l = some q →
      ∀ p ∈ l, p.2 = q.2 → q.1 ≤ p.1 := by
  intro l
  induction l with
  | nil => intro q _ h; simp [argmaxFirst] at h
  | cons p rest ih =>
    intro q hs h x hx hx2
    rw [List.pairwise_cons] at hs
    rcases List.mem_cons.mp hx with hxp | hxr
    · cases hr : argmaxFirst rest with
      | none =>
        rw [argmaxFirst_cons_none hr] at h
        simp only [Option.some.injEq] at h
        rw [hxp, ← h]
      | some r =>
        rw [argmaxFirst_cons_some hr] at h
        by_cases hc : p.2 < r.2
        · rw [if_pos hc] at h
          simp only [Option.some.injEq] at h
          rw [← h] at hx2
          rw [hxp] at hx2
          exact absurd hx2 (ne_of_lt hc)
        · rw [if_neg hc] at h
          simp only [Option.some.injEq] at h
          rw [hxp, ← h]
    · cases hr : argmaxFirst rest with
      | none =>
        rw [argmaxFirst_eq_none.mp hr] at hxr
        simp at hxr
      | some r =>
        rw [argmaxFirst_cons_some hr] at h
        by_cases hc : p.2 < r.2
        · rw [if_pos hc] at h
          simp only [Option.some.injEq] at h
          exact ih hs.2 (h ▸ hr) x hxr hx2
        · rw [if_neg hc] at h
          simp only [Option.some.injEq] at h
          rw [← h]
          exact le_of_lt (hs.1 x hxr)

theorem mem_uniqueVals {l : List ℤ} {v : ℤ} : v ∈ uniqueVals l ↔ v ∈ l := by
  unfold uniqueVals
  rw [Finset.mem_sort]
  exact List.mem_toFinset

theorem mem_uniqueCounts {l : List ℤ} {p : ℤ × ℕ} :
    p ∈ uniqueCounts l ↔ p.1 ∈ l ∧ p.2 = l.count p.1 := by
  unfold uniqueCounts
  rw [List.mem_map]
  constructor
  · rintro ⟨v, hv, rfl⟩
    exact ⟨mem_uniqueVals.mp hv, rfl⟩
  · rintro ⟨h1, h2⟩
    obtain ⟨a, b⟩ := p
    simp only at h1 h2
    exact ⟨a, mem_uniqueVals.mpr h1, by rw [h2]⟩

theorem uniqueCounts_pairwise (l : List ℤ) :
    (uniqueCounts l).Pairwise (fun a b => a.1 < b.1) := by
  unfold uniqueCounts
  rw [List.pairwise_map]
  exact Finset.sort_sorted_lt _

theorem mem_filteredCounts {l : List ℤ} {bg : ℤ} {p : ℤ × ℕ} :
    p ∈ (uniqueCounts l).filter (fun p => p.1 ≠ bg) ↔
      (p.1 ∈ l ∧ p.2 = l.count p.1) ∧ p.1 ≠ bg := by
  rw [List.mem_filter, mem_uniqueCounts]
  simp

theorem largest_label_volume_eq_none_iff {l : List ℤ} {bg : ℤ} :
    largest_label_volume l bg = none ↔ ∀ x ∈ l, x = bg := by
  unfold largest_label_volume
  rw [Option.map_eq_none', argmaxFirst_eq_none, List.filter_eq_nil_iff]
  simp only [decide_eq_true_eq, not_not]
  constructor
  · intro h x hx
    exact h (x, l.count x) (mem_uniqueCounts.mpr ⟨hx, rfl⟩)
  · intro h p hp
    exact h p.1 (mem_uniqueCounts.mp hp).1

theorem largest_label_volume_spec {l : List ℤ} {bg v : ℤ}
    (h : largest_label_volume l bg = some v) :
    v ∈ l ∧ v ≠ bg ∧ ∀ w ∈ l, w ≠ bg →
      l.count w ≤ l.count v ∧ (l.count w = l.count v → v ≤ w) := by
  unfold largest_label_volume at h
  rw [Option.map_eq_some'] at h
  obtain ⟨q, hq, hqv⟩ := h
  have hmem := mem_filteredCounts.mp (argmaxFirst_mem hq)
  have hq2 : q.2 = l.count v := by rw [hmem.1.2, hqv]
  refine ⟨hqv ▸ hmem.1.1, hqv ▸ hmem.2, fun w hw hwbg => ?_⟩
  have hwmem : (w, l.count w) ∈ (uniqueCounts l).filter (fun p => p.1 ≠ bg) :=
    mem_filteredCounts.mpr ⟨⟨hw, rfl⟩, hwbg⟩
  constructor
  · have h1 := argmaxFirst_max hq (w, l.count w) hwmem
    simpa [hq2] using h1
  · intro hcount
    have hpw : ((uniqueCounts l).filter (fun p => p.1 ≠ bg)).Pairwise
        (fun a b => a.1 < b.1) := List.Pairwise.filter _ (uniqueCounts_pairwise l)
    have h1 := argmaxFirst_first hpw hq (w, l.count w) hwmem (by
      simp only []
      rw [hq2, hcount])
    rw [hqv] at h1
    exact h1

theorem largest_label_volume_const {l : List ℤ} {w bg : ℤ} (hne : l ≠ [])
    (hall : ∀ x ∈ l, x = w) (hw : w ≠ bg) :
    largest_label_volume l bg = some w := by
  have hwl : w ∈ l := by
    obtain ⟨y, hy⟩ := List.exists_mem_of_ne_nil l hne
    exact hall y hy ▸ hy
  have htf : l.toFinset = {w} := by
    ext x
    simp only [List.mem_toFinset, Finset.mem_singleton]
    exact ⟨fun hx => hall x hx, fun hx => hx ▸ hwl⟩
  have huv : uniqueVals l = [w] := by
    unfold uniqueVals
    rw [htf, Finset.sort_singleton]
  have huc : uniqueCounts l = [(w, l.count w)] := by
    unfold uniqueCounts
    rw [huv]
    rfl
  unfold largest_label_volume
  rw [huc]
  have hfil : [(w, l.count w)].filter (fun p => p.1 ≠ bg) = [(w, l.count w)] := by
    simp [hw]
  rw [hfil]
  rfl

/-- C10: `largest_label_volume` returns `None` exactly when every element is
the background value; otherwise it returns a non-background value of maximal
occurrence count, and among tied values the numerically smallest (the unique
values are scanned in ascending order and `np.argmax` keeps the first
maximum). -/
theorem c10_largest_label_volume (l : List ℤ) (bg : ℤ) :
    (largest_label_volume l bg = none ↔ ∀ x ∈ l, x = bg) ∧
    ∀ v, largest_label_volume l bg = some v →
      v ∈ l ∧ v ≠ bg ∧ ∀ w ∈ l, w ≠ bg →
        l.count w ≤ l.count v ∧ (l.count w = l.count v → v ≤ w) :=
  ⟨largest_label_volume_eq_none_iff, fun _ h => largest_label_volume_spec h⟩

theorem c10_witness :
    largest_label_volume [5, 5] 0 = some 5 ∧
      (5 : ℤ) ∈ [(5 : ℤ), 5] ∧ (5 : ℤ) ≠ 0 ∧
      ∀ w ∈ [(5 : ℤ), 5], w ≠ 0 →
        ([(5 : ℤ), 5].count w ≤ [(5 : ℤ), 5].count 5 ∧
          ([(5 : ℤ), 5].count w = [(5 : ℤ), 5].count 5 → 5 ≤ w)) := by
  have hsome : largest_label_volume [5, 5] 0 = some 5 :=
    largest_label_volume_const (by simp) (by simp) (by norm_num)
  have hs := (c10_largest_label_volume [5, 5] 0).2 5 hsome
  exact ⟨hsome, hs.1, hs.2.1, hs.2.2⟩

theorem mem_cells {s : Shape} {v : Vox} :
    v ∈ cells s ↔ v.1 < s.n0 ∧ v.2.1 < s.n1 ∧ v.2.2 < s.n2 := by
  unfold cells
  simp [Finset.mem_product]

theorem mem_cellsList {s : Shape} {v : Vox} : v ∈ cellsList s ↔ v ∈ cells s := by
  obtain ⟨a, b, c⟩ := v
  unfold cellsList
  rw [mem_cells]
  simp only [List.mem_flatMap, List.mem_map, List.mem_range, Prod.mk.injEq]
  constructor
  · rintro ⟨i, hi, j, hj, k, hk, rfl, rfl, rfl⟩
    exact ⟨hi, hj, hk⟩
  · rintro ⟨h1, h2, h3⟩
    exact ⟨a, h1, b, h2, c, h3, rfl, rfl, rfl⟩

theorem diffCount_comm (a b : Vox) : diffCount a b = diffCount b a := by
  unfold diffCount
  congr 1
  · congr 1
    · exact if_congr eq_comm rfl rfl
    · exact if_congr eq_comm rfl rfl
  · exact if_congr eq_comm rfl rfl

theorem adjC_symm {s : Shape} {conn : ℕ} {a b : Vox} (h : adjC s conn a b) :
    adjC s conn b a := by
  obtain ⟨h1, h2, h3, h4, h5, h6, h7⟩ := h
  refine ⟨h2, h1, ?_, ?_, ?_, ?_, ?_⟩
  · rwa [Nat.dist_comm]
  · rwa [Nat.dist_comm]
  · rwa [Nat.dist_comm]
  · rwa [diffCount_comm]
  · rwa [diffCount_comm]

theorem adjV_symmetric (s : Shape) (conn : ℕ) (f : Vox → ℤ) :
    Symmetric (adjV s conn f) := fun _ _ h => ⟨adjC_symm h.1, h.2.symm⟩

theorem subset_stepReach (s : Shape) (conn : ℕ) (f : Vox → ℤ) (S : Finset Vox) :
    S ⊆ stepReach s conn f S := Finset.subset_union_left

theorem stepReach_subset (s : Shape) (conn : ℕ) (f : Vox → ℤ) (S : Finset Vox) :
    stepReach s conn f S ⊆ S ∪ cells s :=
  Finset.union_subset_union le_rfl (Finset.filter_subset _ _)

theorem subset_iterate_stepReach (s : Shape) (conn : ℕ) (f : Vox → ℤ)
    (S : Finset Vox) (k : ℕ) : S ⊆ (stepReach s conn f)^[k] S := by
  induction k with
  | zero => simp
  | succ n ih =>
    rw [Function.iterate_succ_apply']
    exact ih.trans (subset_stepReach _ _ _ _)

theorem iterate_stepReach_subset (s : Shape) (conn : ℕ) (f : Vox → ℤ)
    (v : Vox) (k : ℕ) : (stepReach s conn f)^[k] {v} ⊆ {v} ∪ cells s := by
  induction k with
  | zero => simpa using Finset.subset_union_left
  | succ n ih =>
    rw [Function.iterate_succ_apply']
    exact (stepReach_subset _ _ _ _).trans
      (Finset.union_subset ih Finset.subset_union_right)

theorem stepReach_fix_iterate {s : Shape} {conn : ℕ} {f : Vox → ℤ}
    {S : Finset Vox} (hfix : stepReach s conn f S = S) (k : ℕ) :
    (stepReach s conn f)^[k] S = S := by
  induction k with
  | zero => rfl
  | succ n ih => rw [Function.iterate_succ_apply', ih, hfix]

theorem stepReach_eq_or_card_lt (s : Shape) (conn : ℕ) (f : Vox → ℤ)
    (S : Finset Vox) :
    stepReach s conn f S = S ∨ S.card < (stepReach s conn f S).card := by
  rcases eq_or_ne (stepReach s conn f S) S with h | h
  · exact Or.inl h
  · exact Or.inr (Finset.card_lt_card
      (lt_of_le_of_ne (subset_stepReach s conn f S) (Ne.symm h)))

theorem card_le_iterate_stepReach {s : Shape} {conn : ℕ} {f : Vox → ℤ}
    {v : Vox} (m : ℕ)
    (h : ∀ k < m, (stepReach s conn f)^[k + 1] {v} ≠ (stepReach s conn f)^[k] {v}) :
    m + 1 ≤ ((stepReach s conn f)^[m] {v}).card := by
  induction m with
  | zero => simp
  | succ n ih =>
    have h1 := ih (fun k hk => h k (Nat.lt_succ_of_lt hk))
    have h2 := h n (Nat.lt_succ_self n)
    rw [Function.iterate_succ_apply']
    rcases stepReach_eq_or_card_lt s conn f ((stepReach s conn f)^[n] {v}) with
      hfix | hlt
    · exact absurd (by rw [Function.iterate_succ_apply', hfix]) h2
    · omega

theorem stepReach_reach_fix (s : Shape) (conn : ℕ) (f : Vox → ℤ) (v : Vox) :
    stepReach s conn f (reach s conn f v) = reach s conn f v := by
  unfold reach
  by_cases hex : ∃ k < (cells s).card + 1,
      (stepReach s conn f)^[k + 1] {v} = (stepReach s conn f)^[k] {v}
  · obtain ⟨k, hk, hfix⟩ := hex
    have hfixS : stepReach s conn f ((stepReach s conn f)^[k] {v}) =
        (stepReach s conn f)^[k] {v} := by
      have h2 := hfix
      rw [Function.iterate_succ_apply'] at h2
      exact h2
    have hN1 : (stepReach s conn f)^[(cells s).card + 1] {v} =
        (stepReach s conn f)^[k] {v} := by
      have hsplit : (cells s).card + 1 = ((cells s).card + 1 - k) + k := by omega
      rw [hsplit, Function.iterate_add_apply]
      exact stepReach_fix_iterate hfixS _
    rw [hN1, hfixS]
  · push_neg at hex
    have h1 := card_le_iterate_stepReach ((cells s).card + 1) hex
    have h2 := Finset.card_le_card
      (iterate_stepReach_subset s conn f v ((cells s).card + 1))
    have h3 : ({v} ∪ cells s).card ≤ 1 + (cells s).card :=
      le_trans (Finset.card_union_le _ _) (by simp)
    omega

theorem mem_reach_self (s : Shape) (conn : ℕ) (f : Vox → ℤ) (v : Vox) :
    v ∈ reach s conn f v :=
  subset_iterate_stepReach s conn f {v} _ (Finset.mem_singleton_self v)

theorem mem_stepReach_of_adj {s : Shape} {conn : ℕ} {f : Vox → ℤ}
    {S : Finset Vox} {a b : Vox} (ha : a ∈ S) (hab : adjV s conn f a b) :
    b ∈ stepReach s conn f S := by
  unfold stepReach
  apply Finset.mem_union_right
  rw [Finset.mem_filter]
  exact ⟨hab.1.2.1, a, ha, hab⟩

theorem rtg_of_mem_reach {s : Shape} {conn : ℕ} {f : Vox → ℤ} {v w : Vox}
    (h : w ∈ reach s conn f v) : Relation.ReflTransGen (adjV s conn f) v w := by
  unfold reach at h
  revert h
  generalize (cells s).card + 1 = K
  induction K generalizing w with
  | zero =>
    intro h
    simp only [Function.iterate_zero_apply, Finset.mem_singleton] at h
    exact h ▸ Relation.ReflTransGen.refl
  | succ n ih =>
    intro h
    rw [Function.iterate_succ_apply'] at h
    unfold stepReach at h
    rcases Finset.mem_union.mp h with h1 | h2
    · exact ih h1
    · rw [Finset.mem_filter] at h2
      obtain ⟨_, a, ha, hab⟩ := h2
      exact Relation.ReflTransGen.tail (ih ha) hab

theorem mem_reach_of_rtg {s : Shape} {conn : ℕ} {f : Vox → ℤ} {v w : Vox}
    (h : Relation.ReflTransGen (adjV s conn f) v w) : w ∈ reach s conn f v := by
  induction h with
  | refl => exact mem_reach_self s conn f v
  | tail _ hbc ih =>
    rw [← stepReach_reach_fix s conn f v]
    exact mem_stepReach_of_adj ih hbc

theorem mem_reach_iff_rtg {s : Shape} {conn : ℕ} {f : Vox → ℤ} {v w : Vox} :
    w ∈ reach s conn f v ↔ Relation.ReflTransGen (adjV s conn f) v w :=
  ⟨rtg_of_mem_reach, mem_reach_of_rtg⟩

theorem reach_eq_of_rtg {s : Shape} {conn : ℕ} {f : Vox → ℤ} {v w : Vox}
    (h : Relation.ReflTransGen (adjV s conn f) v w) :
    reach s conn f w = reach s conn f v := by
  ext x
  rw [mem_reach_iff_rtg, mem_reach_iff_rtg]
  constructor
  · exact fun hx => h.trans hx
  · exact fun hx =>
      (Relation.ReflTransGen.symmetric (adjV_symmetric s conn f) h).trans hx

theorem rtg_value_eq {s : Shape} {conn : ℕ} {f : Vox → ℤ} {v w : Vox}
    (h : Relation.ReflTransGen (adjV s conn f) v w) : f v = f w := by
  induction h with
  | refl => rfl
  | tail _ hbc ih => exact ih.trans hbc.2

theorem rtg_mem_cells {s : Shape} {conn : ℕ} {f : Vox → ℤ} {v w : Vox}
    (h : Relation.ReflTransGen (adjV s conn f) v w) (hv : v ∈ cells s) :
    w ∈ cells s := by
  rcases Relation.ReflTransGen.cases_tail h with heq | ⟨c, _, hc⟩
  · exact heq ▸ hv
  · exact hc.1.2.1

theorem reach_subset_cells {s : Shape} {conn : ℕ} {f : Vox → ℤ} {u x : Vox}
    (hu : u ∈ cells s) (hx : x ∈ reach s conn f u) : x ∈ cells s := by
  unfold reach at hx
  rcases Finset.mem_union.mp (iterate_stepReach_subset s conn f u _ hx) with
    h1 | h2
  · rw [Finset.mem_singleton] at h1
    exact h1 ▸ hu
  · exact h2

theorem fold_min_eq_init_or_mem (t : Finset Vox) (b : ℕ) (g : Vox → ℕ) :
    t.fold min b g = b ∨ ∃ x ∈ t, t.fold min b g = g x := by
  induction t using Finset.induction_on with
  | empty => exact Or.inl (by simp)
  | insert hx ih =>
    rename_i a t
    rw [Finset.fold_insert hx]
    rcases le_total (g a) (t.fold min b g) with h | h
    · rw [min_eq_left h]
      exact Or.inr ⟨a, Finset.mem_insert_self a t, rfl⟩
    · rw [min_eq_right h]
      rcases ih with h1 | ⟨x, hx2, h2⟩
      · exact Or.inl h1
      · exact Or.inr ⟨x, Finset.mem_insert_of_mem hx2, h2⟩

theorem fold_min_le_of_mem {t : Finset Vox} {b : ℕ} {g : Vox → ℕ} {x : Vox}
    (hx : x ∈ t) : t.fold min b g ≤ g x :=
  (Finset.fold_min_le (g x)).mpr (Or.inr ⟨x, hx, le_rfl⟩)

theorem fold_min_init_mem {t : Finset Vox} {g : Vox → ℕ} {a b : Vox}
    (ha : a ∈ t) (hb : b ∈ t) : t.fold min (g a) g = t.fold min (g b) g := by
  apply le_antisymm
  · rw [Finset.le_fold_min]
    exact ⟨fold_min_le_of_mem hb, fun x hx => fold_min_le_of_mem hx⟩
  · rw [Finset.le_fold_min]
    exact ⟨fold_min_le_of_mem ha, fun x hx => fold_min_le_of_mem hx⟩

theorem mul_add_inj {n x1 x2 y1 y2 : ℕ} (hx : x2 < n) (hy : y2 < n)
    (h : x1 * n + x2 = y1 * n + y2) : x1 = y1 ∧ x2 = y2 := by
  have h1 : (x1 * n + x2) % n = x2 := by
    rw [Nat.add_comm, Nat.add_mul_mod_self_right]
    exact Nat.mod_eq_of_lt hx
  have h2 : (y1 * n + y2) % n = y2 := by
    rw [Nat.add_comm, Nat.add_mul_mod_self_right]
    exact Nat.mod_eq_of_lt hy
  have h3 : x2 = y2 := by rw [← h1, ← h2, h]
  have h4 : x1 * n = y1 * n := by omega
  have hn : 0 < n := lt_of_le_of_lt (Nat.zero_le _) hx
  exact ⟨Nat.eq_of_mul_eq_mul_right hn h4, h3⟩

theorem linIdx_inj {s : Shape} {a b : Vox} (ha : a ∈ cells s)
    (hb : b ∈ cells s) (h : linIdx s a = linIdx s b) : a = b := by
  obtain ⟨a1, a2, a3⟩ := a
  obtain ⟨b1, b2, b3⟩ := b
  rw [mem_cells] at ha hb
  obtain ⟨ha1, ha2, ha3⟩ := ha
  obtain ⟨hb1, hb2, hb3⟩ := hb
  unfold linIdx at h
  simp only at h ha1 ha2 ha3 hb1 hb2 hb3
  obtain ⟨hout, h3⟩ := mul_add_inj ha3 hb3 h
  obtain ⟨h1, h2⟩ := mul_add_inj ha2 hb2 hout
  simp [h1, h2, h3]

theorem labelOf_eq_zero_iff {s : Shape} {conn : ℕ} {bg : ℤ} {f : Vox → ℤ}
    {v : Vox} : labelOf s conn bg f v = 0 ↔ ¬(v ∈ cells s ∧ f v ≠ bg) := by
  unfold labelOf
  split_ifs with h <;> simp [h]

theorem labelOf_eq_iff {s : Shape} {conn : ℕ} {bg : ℤ} {f : Vox → ℤ}
    {v w : Vox} (hv : v ∈ cells s) (hfv : f v ≠ bg) :
    labelOf s conn bg f v = labelOf s conn bg f w ↔
      Relation.ReflTransGen (adjV s conn f) v w := by
  constructor
  · intro h
    have hvpos : labelOf s conn bg f v ≠ 0 := by
      unfold labelOf
      rw [if_pos ⟨hv, hfv⟩]
      omega
    have hw : w ∈ cells s ∧ f w ≠ bg := by
      by_contra hc
      exact hvpos (h.trans (labelOf_eq_zero_iff.mpr hc))
    unfold labelOf at h
    rw [if_pos ⟨hv, hfv⟩, if_pos hw] at h
    have hmin : (reach s conn f v).fold min (linIdx s v) (linIdx s) =
        (reach s conn f w).fold min (linIdx s w) (linIdx s) := by omega
    have hmv : ∃ x ∈ reach s conn f v,
        (reach s conn f v).fold min (linIdx s v) (linIdx s) = linIdx s x := by
      rcases fold_min_eq_init_or_mem (reach s conn f v) (linIdx s v)
          (linIdx s) with h1 | h2
      · exact ⟨v, mem_reach_self s conn f v, h1⟩
      · exact h2
    have hmw : ∃ x ∈ reach s conn f w,
        (reach s conn f w).fold min (linIdx s w) (linIdx s) = linIdx s x := by
      rcases fold_min_eq_init_or_mem (reach s conn f w) (linIdx s w)
          (linIdx s) with h1 | h2
      · exact ⟨w, mem_reach_self s conn f w, h1⟩
      · exact h2
    obtain ⟨mv, hmv1, hmv2⟩ := hmv
    obtain ⟨mw, hmw1, hmw2⟩ := hmw
    have hmveq : mv = mw :=
      linIdx_inj (reach_subset_cells hv hmv1) (reach_subset_cells hw.1 hmw1)
        (by rw [← hmv2, ← hmw2, hmin])
    have h1 := rtg_of_mem_reach hmv1
    have h2 := rtg_of_mem_reach hmw1
    exact (hmveq ▸ h1).trans
      (Relation.ReflTransGen.symmetric (adjV_symmetric s conn f) h2)
  · intro h
    have hr := reach_eq_of_rtg h
    have hfw : f v = f w := rtg_value_eq h
    have hwc : w ∈ cells s := rtg_mem_cells h hv
    unfold labelOf
    rw [if_pos ⟨hv, hfv⟩, if_pos ⟨hwc, by rw [← hfw]; exact hfv⟩]
    have hwr : w ∈ reach s conn f v := mem_reach_of_rtg h
    rw [hr]
    exact congrArg (1 + ·)
      (fold_min_init_mem (mem_reach_self s conn f v) hwr)

/-- C5 (amended): the post-closing labeling pass (line 188,
`measure.label(..., connectivity=1)`) does use 6-connectivity — two
non-background voxels share a label exactly when a 6-connected path of equal
source values joins them — but the global largest-component pass (line 224,
`measure.label(..., background=0)`) omits the connectivity argument and so
uses the 3-D default full 26-connectivity: there, voxels share a label
exactly when a 26-connected path of equal values joins them. -/
theorem c5_two_connectivities (s : Shape) (g : Vox → ℤ) (v w : Vox)
    (hv : v ∈ cells s) (hgv : g v ≠ 0) :
    (labelPost s g v = labelPost s g w ↔
      Relation.ReflTransGen (adjV s 1 g) v w) ∧
    (labelGlobal s g v = labelGlobal s g w ↔
      Relation.ReflTransGen (adjV s 3 g) v w) :=
  ⟨labelOf_eq_iff hv hgv, labelOf_eq_iff hv hgv⟩

theorem c5_witness :
    ((0, 0, 0) : Vox) ∈ cells ⟨1, 1, 1⟩ ∧ ((1 : ℤ) ≠ 0) ∧
      ((labelPost ⟨1, 1, 1⟩ (fun _ => 1) (0, 0, 0) =
          labelPost ⟨1, 1, 1⟩ (fun _ => 1) (0, 0, 0) ↔
        Relation.ReflTransGen (adjV ⟨1, 1, 1⟩ 1 (fun _ => 1))
          (0, 0, 0) (0, 0, 0)) ∧
      (labelGlobal ⟨1, 1, 1⟩ (fun _ => 1) (0, 0, 0) =
          labelGlobal ⟨1, 1, 1⟩ (fun _ => 1) (0, 0, 0) ↔
        Relation.ReflTransGen (adjV ⟨1, 1, 1⟩ 3 (fun _ => 1))
          (0, 0, 0) (0, 0, 0))) :=
  ⟨mem_cells.mpr ⟨by norm_num, by norm_num, by norm_num⟩, by norm_num,
    c5_two_connectivities ⟨1, 1, 1⟩ (fun _ => 1) (0, 0, 0) (0, 0, 0)
      (mem_cells.mpr ⟨by norm_num, by norm_num, by norm_num⟩) (by norm_num)⟩

/-- C5 (counterexample): the global largest-component pass labels with full
26-connectivity, not 6-connectivity.  On a 1×2×2 volume with value 1 at the
two diagonal voxels (0,0,0) and (0,1,1) and 0 elsewhere, that pass gives both
diagonal voxels the same nonzero label although no 6-connected path of equal
values joins them. -/
theorem c5_counterexample :
    labelGlobal ⟨1, 2, 2⟩
        (fun v => if v = ((0, 0, 0) : Vox) ∨ v = (0, 1, 1) then (1 : ℤ) else 0)
        (0, 0, 0) =
      labelGlobal ⟨1, 2, 2⟩
        (fun v => if v = ((0, 0, 0) : Vox) ∨ v = (0, 1, 1) then (1 : ℤ) else 0)
        (0, 1, 1) ∧
    labelGlobal ⟨1, 2, 2⟩
        (fun v => if v = ((0, 0, 0) : Vox) ∨ v = (0, 1, 1) then (1 : ℤ) else 0)
        (0, 0, 0) ≠ 0 ∧
    ¬ Relation.ReflTransGen
        (adjV ⟨1, 2, 2⟩ 1
          (fun v => if v = ((0, 0, 0) : Vox) ∨ v = (0, 1, 1) then (1 : ℤ) else 0))
        (0, 0, 0) (0, 1, 1) := by
  refine ⟨by decide, by decide, fun h => absurd (mem_reach_of_rtg h) (by decide)⟩

theorem mem_offsets {lo hi : ℤ} {d : ℤ × ℤ × ℤ} :
    d ∈ offsets lo hi ↔
      (lo ≤ d.1 ∧ d.1 ≤ hi) ∧ (lo ≤ d.2.1 ∧ d.2.1 ≤ hi) ∧
        (lo ≤ d.2.2 ∧ d.2.2 ≤ hi) := by
  unfold offsets
  simp [Finset.mem_product, Finset.mem_Icc, and_assoc]

theorem addOff_spec {s : Shape} {v : Vox} {d : ℤ × ℤ × ℤ} {u : Vox} :
    addOff s v d = some u ↔
      ((u.1 : ℤ) = (v.1 : ℤ) + d.1 ∧ (u.2.1 : ℤ) = (v.2.1 : ℤ) + d.2.1 ∧
        (u.2.2 : ℤ) = (v.2.2 : ℤ) + d.2.2) ∧ u ∈ cells s := by
  simp only [addOff]
  split_ifs with hc
  · obtain ⟨hc1, hc2, hc3, hc4, hc5, hc6⟩ := hc
    simp only [Option.some.injEq]
    constructor
    · rintro rfl
      refine ⟨⟨?_, ?_, ?_⟩, mem_cells.mpr ⟨?_, ?_, ?_⟩⟩ <;> simp <;> omega
    · rintro ⟨⟨he1, he2, he3⟩, hmem⟩
      obtain ⟨u1, u2, u3⟩ := u
      rw [mem_cells] at hmem
      simp only at he1 he2 he3 hmem
      simp only [Prod.mk.injEq]
      refine ⟨?_, ?_, ?_⟩ <;> omega
  · simp only [false_iff, reduceCtorEq]
    rintro ⟨⟨he1, he2, he3⟩, hmem⟩
    rw [mem_cells] at hmem
    exact hc ⟨by omega, by omega, by omega, by omega, by omega, by omega⟩

theorem addOff_eq_none_iff {s : Shape} {v : Vox} {d : ℤ × ℤ × ℤ} :
    addOff s v d = none ↔
      ¬(0 ≤ (v.1 : ℤ) + d.1 ∧ (v.1 : ℤ) + d.1 < s.n0 ∧
        0 ≤ (v.2.1 : ℤ) + d.2.1 ∧ (v.2.1 : ℤ) + d.2.1 < s.n1 ∧
        0 ≤ (v.2.2 : ℤ) + d.2.2 ∧ (v.2.2 : ℤ) + d.2.2 < s.n2) := by
  simp only [addOff]
  split_ifs with hc <;> simp [hc]

theorem addOff_zero {s : Shape} {v : Vox} (hv : v ∈ cells s) :
    addOff s v (0, 0, 0) = some v :=
  addOff_spec.mpr ⟨⟨by simp, by simp, by simp⟩, hv⟩

theorem optMap_getD_eq_true {o : Option Vox} {m : Vox → Bool} :
    ((o.map m).getD false = true) ↔ ∃ u, o = some u ∧ m u = true := by
  cases o <;> simp

theorem bdilate_eq_true_iff {s : Shape} {lo hi : ℤ} {m : Vox → Bool} {v : Vox} :
    bdilate s lo hi m v = true ↔
      ∃ d ∈ offsets lo hi, ∃ u, addOff s v d = some u ∧ m u = true := by
  unfold bdilate
  rw [decide_eq_true_eq]
  constructor
  · rintro ⟨d, hd, h⟩
    exact ⟨d, hd, optMap_getD_eq_true.mp h⟩
  · rintro ⟨d, hd, u, hu, hm⟩
    exact ⟨d, hd, optMap_getD_eq_true.mpr ⟨u, hu, hm⟩⟩

theorem berode_eq_true_iff {s : Shape} {lo hi : ℤ} {m : Vox → Bool} {v : Vox} :
    berode s lo hi m v = true ↔
      ∀ d ∈ offsets lo hi, ∃ u, addOff s v d = some u ∧ m u = true := by
  unfold berode
  rw [decide_eq_true_eq]
  constructor
  · intro h d hd
    exact optMap_getD_eq_true.mp (h d hd)
  · intro h d hd
    exact optMap_getD_eq_true.mpr (h d hd)

/-- C6: the final binary dilation of `segment_lung_mask` (10×10×10 all-ones
structuring element, whose offset window contains the zero offset) never
removes a positive voxel: the returned mask contains the pre-dilation
candidate region, and in particular the positive-voxel count never
decreases under the dilation, for arbitrary masks as well as for the
pipeline's own candidate region. -/
theorem c6_dilation_superset :
    (∀ (s : Shape) (m : Vox → Bool) (v : Vox), v ∈ cells s → m v = true →
        bdilate s (-4) 5 m v = true) ∧
    (∀ (s : Shape) (m : Vox → Bool),
        countPositive s m ≤ countPositive s (bdilate s (-4) 5 m)) ∧
    (∀ (s : Shape) (f : Vox → ℤ) (fill : Bool) (v : Vox), v ∈ cells s →
        slmCandidate s f fill v ≠ 0 → segment_lung_mask s f fill v = true) := by
  have hsup : ∀ (s : Shape) (m : Vox → Bool) (v : Vox), v ∈ cells s →
      m v = true → bdilate s (-4) 5 m v = true := by
    intro s m v hv hm
    rw [bdilate_eq_true_iff]
    exact ⟨(0, 0, 0), mem_offsets.mpr (by norm_num), v, addOff_zero hv, hm⟩
  refine ⟨hsup, ?_, ?_⟩
  · intro s m
    unfold countPositive
    apply Finset.card_le_card
    intro x hx
    rw [Finset.mem_filter] at hx ⊢
    exact ⟨hx.1, hsup s m x hx.1 hx.2⟩
  · intro s f fill v hv hc
    unfold segment_lung_mask
    exact hsup s _ v hv (by rw [decide_eq_true_eq]; exact hc)

theorem c6_witness :
    (((0, 0, 0) : Vox) ∈ cells ⟨1, 1, 1⟩ ∧
      bdilate ⟨1, 1, 1⟩ (-4) 5 (fun _ => true) (0, 0, 0) = true) ∧
    countPositive ⟨1, 1, 1⟩ (fun _ => true) ≤
      countPositive ⟨1, 1, 1⟩ (bdilate ⟨1, 1, 1⟩ (-4) 5 (fun _ => true)) ∧
    (slmCandidate ⟨1, 1, 1⟩ (fun _ => 0) true (0, 0, 0) ≠ 0 →
      segment_lung_mask ⟨1, 1, 1⟩ (fun _ => 0) true (0, 0, 0) = true) := by
  have hmem : ((0, 0, 0) : Vox) ∈ cells ⟨1, 1, 1⟩ :=
    mem_cells.mpr ⟨by norm_num, by norm_num, by norm_num⟩
  exact ⟨⟨hmem, c6_dilation_superset.1 ⟨1, 1, 1⟩ (fun _ => true) (0, 0, 0) hmem
      rfl⟩,
    c6_dilation_superset.2.1 ⟨1, 1, 1⟩ (fun _ => true),
    c6_dilation_superset.2.2 ⟨1, 1, 1⟩ (fun _ => 0) true (0, 0, 0) hmem⟩

theorem rtg_walk_z {s : Shape} {conn : ℕ} {g : Vox → ℤ} (hc : 1 ≤ conn)
    (a b : ℕ) : ∀ z : ℕ,
    (∀ t, t ≤ z → (a, b, t) ∈ cells s ∧ g (a, b, t) = g (a, b, 0)) →
    Relation.ReflTransGen (adjV s conn g) (a, b, z) (a, b, 0)
  | 0, _ => Relation.ReflTransGen.refl
  | z + 1, h => by
    have hdc : diffCount ((a, b, z + 1) : Vox) (a, b, z) = 1 := by
      simp [diffCount]
    have hadj : adjV s conn g (a, b, z + 1) (a, b, z) := by
      refine ⟨⟨(h (z + 1) le_rfl).1, (h z (Nat.le_succ z)).1, ?_, ?_, ?_, ?_, ?_⟩,
        ?_⟩
      · simp [Nat.dist_self]
      · simp [Nat.dist_self]
      · simp [Nat.dist]
      · rw [hdc]
      · rw [hdc]; exact hc
      · exact ((h (z + 1) le_rfl).2).trans ((h z (Nat.le_succ z)).2).symm
    exact Relation.ReflTransGen.head hadj
      (rtg_walk_z hc a b z (fun t ht => h t (le_trans ht (Nat.le_succ z))))

theorem rtg_walk_y {s : Shape} {conn : ℕ} {g : Vox → ℤ} (hc : 1 ≤ conn)
    (a c : ℕ) : ∀ y : ℕ,
    (∀ t, t ≤ y → (a, t, c) ∈ cells s ∧ g (a, t, c) = g (a, 0, c)) →
    Relation.ReflTransGen (adjV s conn g) (a, y, c) (a, 0, c)
  | 0, _ => Relation.ReflTransGen.refl
  | y + 1, h => by
    have hdc : diffCount ((a, y + 1, c) : Vox) (a, y, c) = 1 := by
      simp [diffCount]
    have hadj : adjV s conn g (a, y + 1, c) (a, y, c) := by
      refine ⟨⟨(h (y + 1) le_rfl).1, (h y (Nat.le_succ y)).1, ?_, ?_, ?_, ?_, ?_⟩,
        ?_⟩
      · simp [Nat.dist_self]
      · simp [Nat.dist]
      · simp [Nat.dist_self]
      · rw [hdc]
      · rw [hdc]; exact hc
      · exact ((h (y + 1) le_rfl).2).trans ((h y (Nat.le_succ y)).2).symm
    exact Relation.ReflTransGen.head hadj
      (rtg_walk_y hc a c y (fun t ht => h t (le_trans ht (Nat.le_succ y))))

theorem rtg_walk_x {s : Shape} {conn : ℕ} {g : Vox → ℤ} (hc : 1 ≤ conn)
    (b c : ℕ) : ∀ x : ℕ,
    (∀ t, t ≤ x → (t, b, c) ∈ cells s ∧ g (t, b, c) = g (0, b, c)) →
    Relation.ReflTransGen (adjV s conn g) (x, b, c) (0, b, c)
  | 0, _ => Relation.ReflTransGen.refl
  | x + 1, h => by
    have hdc : diffCount ((x + 1, b, c) : Vox) (x, b, c) = 1 := by
      simp [diffCount]
    have hadj : adjV s conn g (x + 1, b, c) (x, b, c) := by
      refine ⟨⟨(h (x + 1) le_rfl).1, (h x (Nat.le_succ x)).1, ?_, ?_, ?_, ?_, ?_⟩,
        ?_⟩
      · simp [Nat.dist]
      · simp [Nat.dist_self]
      · simp [Nat.dist_self]
      · rw [hdc]
      · rw [hdc]; exact hc
      · exact ((h (x + 1) le_rfl).2).trans ((h x (Nat.le_succ x)).2).symm
    exact Relation.ReflTransGen.head hadj
      (rtg_walk_x hc b c x (fun t ht => h t (le_trans ht (Nat.le_succ x))))

theorem bthresh_all_tissue {s : Shape} {f : Vox → ℤ}
    (H : ∀ v ∈ cells s, -320 < f v) : ∀ v ∈ cells s, bthresh f v = true := by
  intro v hv
  unfold bthresh
  rw [decide_eq_true_eq]
  exact H v hv

theorem bdilate5_all_tissue {s : Shape} {f : Vox → ℤ}
    (H : ∀ v ∈ cells s, -320 < f v) :
    ∀ v ∈ cells s, bdilate s (-2) 2 (bthresh f) v = true := by
  intro v hv
  rw [bdilate_eq_true_iff]
  exact ⟨(0, 0, 0), mem_offsets.mpr (by norm_num), v, addOff_zero hv,
    bthresh_all_tissue H v hv⟩

theorem bclosing_all_tissue {s : Shape} {f : Vox → ℤ}
    (H : ∀ v ∈ cells s, -320 < f v) (v : Vox) :
    bclosing s (bthresh f) v = true ↔
      2 ≤ v.1 ∧ v.1 + 2 < s.n0 ∧ 2 ≤ v.2.1 ∧ v.2.1 + 2 < s.n1 ∧
        2 ≤ v.2.2 ∧ v.2.2 + 2 < s.n2 := by
  unfold bclosing
  rw [berode_eq_true_iff]
  constructor
  · intro h
    obtain ⟨u1, hu1, _⟩ := h (-2, -2, -2) (mem_offsets.mpr (by norm_num))
    obtain ⟨u2, hu2, _⟩ := h (2, 2, 2) (mem_offsets.mpr (by norm_num))
    obtain ⟨⟨e1, e2, e3⟩, hm1⟩ := addOff_spec.mp hu1
    obtain ⟨⟨e4, e5, e6⟩, hm2⟩ := addOff_spec.mp hu2
    rw [mem_cells] at hm1 hm2
    obtain ⟨hm11, hm12, hm13⟩ := hm1
    obtain ⟨hm21, hm22, hm23⟩ := hm2
    dsimp only at e1 e2 e3 e4 e5 e6
    refine ⟨?_, ?_, ?_, ?_, ?_, ?_⟩ <;> omega
  · intro hdeep d hd
    rw [mem_offsets] at hd
    have hne : addOff s v d ≠ none := by
      intro hn
      rw [addOff_eq_none_iff] at hn
      obtain ⟨hd1, hd2, hd3⟩ := hd
      exact hn ⟨by omega, by omega, by omega, by omega, by omega, by omega⟩
    obtain ⟨u, hu⟩ := Option.ne_none_iff_exists'.mp hne
    exact ⟨u, hu, bdilate5_all_tissue H u (addOff_spec.mp hu).2⟩

theorem binImage_deep {s : Shape} {f : Vox → ℤ}
    (H : ∀ v ∈ cells s, -320 < f v) {v : Vox}
    (hd : 2 ≤ v.1 ∧ v.1 + 2 < s.n0 ∧ 2 ≤ v.2.1 ∧ v.2.1 + 2 < s.n1 ∧
      2 ≤ v.2.2 ∧ v.2.2 + 2 < s.n2) : binImage s f v = 2 := by
  unfold binImage
  rw [if_pos ((bclosing_all_tissue H v).mpr hd)]
  norm_num

theorem binImage_shell {s : Shape} {f : Vox → ℤ}
    (H : ∀ v ∈ cells s, -320 < f v) {v : Vox}
    (hs : ¬(2 ≤ v.1 ∧ v.1 + 2 < s.n0 ∧ 2 ≤ v.2.1 ∧ v.2.1 + 2 < s.n1 ∧
      2 ≤ v.2.2 ∧ v.2.2 + 2 < s.n2)) : binImage s f v = 1 := by
  unfold binImage
  rw [if_neg (fun hcl => hs ((bclosing_all_tissue H v).mp hcl))]
  norm_num

theorem shell_rtg_corner {s : Shape} {f : Vox → ℤ}
    (H : ∀ v ∈ cells s, -320 < f v)
    (h0 : 0 < s.n0) (h1 : 0 < s.n1) (h2 : 0 < s.n2) :
    ∀ v ∈ cells s,
      ¬(2 ≤ v.1 ∧ v.1 + 2 < s.n0 ∧ 2 ≤ v.2.1 ∧ v.2.1 + 2 < s.n1 ∧
        2 ≤ v.2.2 ∧ v.2.2 + 2 < s.n2) →
      Relation.ReflTransGen (adjV s 1 (binImage s f)) v (0, 0, 0) := by
  intro v hv hnd
  obtain ⟨a, b, c⟩ := v
  rw [mem_cells] at hv
  obtain ⟨ha, hb, hcz⟩ := hv
  dsimp only at ha hb hcz hnd
  have hshell_x0 : ∀ y z : ℕ,
      ¬(2 ≤ (0 : ℕ) ∧ 0 + 2 < s.n0 ∧ 2 ≤ y ∧ y + 2 < s.n1 ∧
        2 ≤ z ∧ z + 2 < s.n2) := fun y z hdd => by omega
  have hshell_y0 : ∀ x z : ℕ,
      ¬(2 ≤ x ∧ x + 2 < s.n0 ∧ 2 ≤ (0 : ℕ) ∧ 0 + 2 < s.n1 ∧
        2 ≤ z ∧ z + 2 < s.n2) := fun x z hdd => by omega
  by_cases hax0 : 2 ≤ a ∧ a + 2 < s.n0
  · by_cases hax1 : 2 ≤ b ∧ b + 2 < s.n1
    · by_cases hax2 : 2 ≤ c ∧ c + 2 < s.n2
      · exact absurd ⟨hax0.1, hax0.2, hax1.1, hax1.2, hax2.1, hax2.2⟩ hnd
      · have hshell2 : ∀ x y : ℕ,
            ¬(2 ≤ x ∧ x + 2 < s.n0 ∧ 2 ≤ y ∧ y + 2 < s.n1 ∧
              2 ≤ c ∧ c + 2 < s.n2) :=
          fun x y hdd => hax2 ⟨hdd.2.2.2.2.1, hdd.2.2.2.2.2⟩
        have w1 := rtg_walk_y (s := s) (g := binImage s f) le_rfl a c b
          (fun t ht => ⟨mem_cells.mpr ⟨ha, lt_of_le_of_lt ht hb, hcz⟩,
            by rw [binImage_shell H (hshell2 a t), binImage_shell H (hshell2 a 0)]⟩)
        have w2 := rtg_walk_x (s := s) (g := binImage s f) le_rfl 0 c a
          (fun t ht => ⟨mem_cells.mpr ⟨lt_of_le_of_lt ht ha, h1, hcz⟩,
            by rw [binImage_shell H (hshell2 t 0), binImage_shell H (hshell2 0 0)]⟩)
        have w3 := rtg_walk_z (s := s) (g := binImage s f) le_rfl 0 0 c
          (fun t ht => ⟨mem_cells.mpr ⟨h0, h1, lt_of_le_of_lt ht hcz⟩,
            by rw [binImage_shell H (hshell_x0 0 t), binImage_shell H (hshell_x0 0 0)]⟩)
        exact w1.trans (w2.trans w3)
    · have hshell1 : ∀ x z : ℕ,
          ¬(2 ≤ x ∧ x + 2 < s.n0 ∧ 2 ≤ b ∧ b + 2 < s.n1 ∧
            2 ≤ z ∧ z + 2 < s.n2) :=
        fun x z hdd => hax1 ⟨hdd.2.2.1, hdd.2.2.2.1⟩
      have w1 := rtg_walk_z (s := s) (g := binImage s f) le_rfl a b c
        (fun t ht => ⟨mem_cells.mpr ⟨ha, hb, lt_of_le_of_lt ht hcz⟩,
          by rw [binImage_shell H (hshell1 a t), binImage_shell H (hshell1 a 0)]⟩)
      have w2 := rtg_walk_x (s := s) (g := binImage s f) le_rfl b 0 a
        (fun t ht => ⟨mem_cells.mpr ⟨lt_of_le_of_lt ht ha, hb, h2⟩,
          by rw [binImage_shell H (hshell1 t 0), binImage_shell H (hshell1 0 0)]⟩)
      have w3 := rtg_walk_y (s := s) (g := binImage s f) le_rfl 0 0 b
        (fun t ht => ⟨mem_cells.mpr ⟨h0, lt_of_le_of_lt ht hb, h2⟩,
          by rw [binImage_shell H (hshell_x0 t 0), binImage_shell H (hshell_x0 0 0)]⟩)
      exact w1.trans (w2.trans w3)
  · have hshell0 : ∀ y z : ℕ,
        ¬(2 ≤ a ∧ a + 2 < s.n0 ∧ 2 ≤ y ∧ y + 2 < s.n1 ∧
          2 ≤ z ∧ z + 2 < s.n2) :=
      fun y z hdd => hax0 ⟨hdd.1, hdd.2.1⟩
    have w1 := rtg_walk_z (s := s) (g := binImage s f) le_rfl a b c
      (fun t ht => ⟨mem_cells.mpr ⟨ha, hb, lt_of_le_of_lt ht hcz⟩,
        by rw [binImage_shell H (hshell0 b t), binImage_shell H (hshell0 b 0)]⟩)
    have w2 := rtg_walk_y (s := s) (g := binImage s f) le_rfl a 0 b
      (fun t ht => ⟨mem_cells.mpr ⟨ha, lt_of_le_of_lt ht hb, h2⟩,
        by rw [binImage_shell H (hshell0 t 0), binImage_shell H (hshell0 0 0)]⟩)
    have w3 := rtg_walk_x (s := s) (g := binImage s f) le_rfl 0 0 a
      (fun t ht => ⟨mem_cells.mpr ⟨lt_of_le_of_lt ht ha, h1, h2⟩,
        by rw [binImage_shell H (hshell_y0 t 0), binImage_shell H (hshell_y0 0 0)]⟩)
    exact w1.trans (w2.trans w3)

theorem markedImage_all_tissue {s : Shape} {f : Vox → ℤ}
    (H : ∀ v ∈ cells s, -320 < f v)
    (h0 : 0 < s.n0) (h1 : 0 < s.n1) (h2 : 0 < s.n2) :
    ∀ v ∈ cells s, markedImage s f v = 2 := by
  intro v hv
  unfold markedImage backgroundLabel labelPost
  by_cases hd : 2 ≤ v.1 ∧ v.1 + 2 < s.n0 ∧ 2 ≤ v.2.1 ∧ v.2.1 + 2 < s.n1 ∧
      2 ≤ v.2.2 ∧ v.2.2 + 2 < s.n2
  · split_ifs with hl
    · rfl
    · exact binImage_deep H hd
  · rw [if_pos ((labelOf_eq_iff hv
      (by rw [binImage_shell H hd]; norm_num)).mpr
        (shell_rtg_corner H h0 h1 h2 v hv hd))]

theorem sliceVol_all_tissue {s : Shape} {f : Vox → ℤ}
    (H : ∀ v ∈ cells s, -320 < f v)
    (h0 : 0 < s.n0) (h1 : 0 < s.n1) (h2 : 0 < s.n2) {i : ℕ} (hi : i < s.n0) :
    ∀ v ∈ cells (sliceShape s), sliceVol (markedImage s f) i v = 1 := by
  intro v hv
  rw [mem_cells] at hv
  unfold sliceVol
  rw [markedImage_all_tissue H h0 h1 h2 (i, v.2.1, v.2.2)
    (mem_cells.mpr ⟨hi, hv.2.1, hv.2.2⟩)]
  norm_num

theorem sliceLabels_const {s : Shape} {f : Vox → ℤ}
    (H : ∀ v ∈ cells s, -320 < f v)
    (h0 : 0 < s.n0) (h1 : 0 < s.n1) (h2 : 0 < s.n2) {i : ℕ} (hi : i < s.n0) :
    ∀ v ∈ cells (sliceShape s),
      sliceLabels s f i v = sliceLabels s f i (0, 0, 0) := by
  intro v hv
  have hv1 := hv
  rw [mem_cells] at hv1
  obtain ⟨a, b, c⟩ := v
  dsimp only at hv1
  obtain ⟨hva, hvb, hvc⟩ := hv1
  have ha0 : a = 0 := Nat.lt_one_iff.mp hva
  subst ha0
  unfold sliceLabels
  apply (labelOf_eq_iff hv
    (by rw [sliceVol_all_tissue H h0 h1 h2 hi _ hv]; norm_num)).mpr
  have hm1 : ∀ t : ℕ, t ≤ c → ((0, b, t) : Vox) ∈ cells (sliceShape s) :=
    fun t ht => mem_cells.mpr ⟨Nat.one_pos, hvb, lt_of_le_of_lt ht hvc⟩
  have hm2 : ∀ t : ℕ, t ≤ b → ((0, t, 0) : Vox) ∈ cells (sliceShape s) :=
    fun t ht => mem_cells.mpr ⟨Nat.one_pos, lt_of_le_of_lt ht hvb, h2⟩
  have w1 := @rtg_walk_z (sliceShape s) 2
    (sliceVol (markedImage s f) i) (by norm_num) 0 b c
    (fun t ht => ⟨hm1 t ht,
      by rw [sliceVol_all_tissue H h0 h1 h2 hi _ (hm1 t ht),
        sliceVol_all_tissue H h0 h1 h2 hi _ (hm1 0 (Nat.zero_le c))]⟩)
  have w2 := @rtg_walk_y (sliceShape s) 2
    (sliceVol (markedImage s f) i) (by norm_num) 0 0 b
    (fun t ht => ⟨hm2 t ht,
      by rw [sliceVol_all_tissue H h0 h1 h2 hi _ (hm2 t ht),
        sliceVol_all_tissue H h0 h1 h2 hi _ (hm2 0 (Nat.zero_le b))]⟩)
  exact w1.trans w2

theorem sliceLmax_all_tissue {s : Shape} {f : Vox → ℤ}
    (H : ∀ v ∈ cells s, -320 < f v)
    (h0 : 0 < s.n0) (h1 : 0 < s.n1) (h2 : 0 < s.n2) {i : ℕ} (hi : i < s.n0) :
    sliceLmax s f i = some ((sliceLabels s f i (0, 0, 0) : ℕ) : ℤ) := by
  have hcorner : ((0, 0, 0) : Vox) ∈ cells (sliceShape s) :=
    mem_cells.mpr ⟨Nat.one_pos, h1, h2⟩
  unfold sliceLmax flattenVol
  apply largest_label_volume_const
  · exact List.ne_nil_of_mem
      (List.mem_map_of_mem _ (mem_cellsList.mpr hcorner))
  · intro x hx
    rw [List.mem_map] at hx
    obtain ⟨u, hu, rfl⟩ := hx
    rw [sliceLabels_const H h0 h1 h2 hi u (mem_cellsList.mp hu)]
  · have hL : sliceLabels s f i (0, 0, 0) ≠ 0 := by
      unfold sliceLabels labelOf
      rw [if_pos ⟨hcorner, by
        rw [sliceVol_all_tissue H h0 h1 h2 hi _ hcorner]; norm_num⟩]
      omega
    exact_mod_cast hL

theorem filledImage_all_tissue {s : Shape} {f : Vox → ℤ}
    (H : ∀ v ∈ cells s, -320 < f v)
    (h0 : 0 < s.n0) (h1 : 0 < s.n1) (h2 : 0 < s.n2) :
    ∀ v ∈ cells s, filledImage s f true v = 2 := by
  intro v hv
  have hv1 := mem_cells.mp hv
  have hmemslice : ((0, v.2.1, v.2.2) : Vox) ∈ cells (sliceShape s) :=
    mem_cells.mpr ⟨Nat.one_pos, hv1.2.1, hv1.2.2⟩
  unfold filledImage
  rw [if_pos rfl, sliceLmax_all_tissue H h0 h1 h2 hv1.1, Option.elim_some,
    if_neg (fun hne => hne (by
      rw [sliceLabels_const H h0 h1 h2 hv1.1 (0, v.2.1, v.2.2) hmemslice]))]
  exact markedImage_all_tissue H h0 h1 h2 v hv

theorem binarized_all_tissue {s : Shape} {f : Vox → ℤ}
    (H : ∀ v ∈ cells s, -320 < f v)
    (h0 : 0 < s.n0) (h1 : 0 < s.n1) (h2 : 0 < s.n2) :
    ∀ v ∈ cells s, binarized s f true v = 0 := by
  intro v hv
  unfold binarized
  rw [filledImage_all_tissue H h0 h1 h2 v hv]
  norm_num

theorem labelGlobal_all_tissue {s : Shape} {f : Vox → ℤ}
    (H : ∀ v ∈ cells s, -320 < f v)
    (h0 : 0 < s.n0) (h1 : 0 < s.n1) (h2 : 0 < s.n2) :
    ∀ v : Vox, labelGlobal s (binarized s f true) v = 0 := by
  intro v
  unfold labelGlobal labelOf
  rw [if_neg]
  rintro ⟨hvc, hnz⟩
  exact hnz (binarized_all_tissue H h0 h1 h2 v hvc)

theorem globalLmax_all_tissue {s : Shape} {f : Vox → ℤ}
    (H : ∀ v ∈ cells s, -320 < f v)
    (h0 : 0 < s.n0) (h1 : 0 < s.n1) (h2 : 0 < s.n2) :
    globalLmax s f true = none := by
  unfold globalLmax flattenVol
  rw [largest_label_volume_eq_none_iff]
  intro x hx
  rw [List.mem_map] at hx
  obtain ⟨u, _, rfl⟩ := hx
  rw [labelGlobal_all_tissue H h0 h1 h2 u]
  rfl

/-- C4: on any volume in which every in-bounds voxel is strictly above the
-320 threshold (uniform all-tissue, no air anywhere), `segment_lung_mask`
returns the all-false mask — the empty mask is produced by ordinary control
flow (`largest_label_volume` returns `None` and the candidate stays empty),
not by an exception; the output is a boolean volume over the same grid. -/
theorem c4_segment_lung_mask_empty (s : Shape) (f : Vox → ℤ)
    (h0 : 0 < s.n0) (h1 : 0 < s.n1) (h2 : 0 < s.n2)
    (H : ∀ v ∈ cells s, -320 < f v) :
    ∀ v : Vox, segment_lung_mask s f true v = false := by
  intro v
  unfold segment_lung_mask
  rw [Bool.eq_false_iff]
  intro hc
  rw [bdilate_eq_true_iff] at hc
  obtain ⟨d, hd, u, hu, hm⟩ := hc
  rw [decide_eq_true_eq] at hm
  apply hm
  unfold slmCandidate
  rw [globalLmax_all_tissue H h0 h1 h2, Option.elim_none]
  exact binarized_all_tissue H h0 h1 h2 u (addOff_spec.mp hu).2

theorem c4_witness :
    (0 < 1) ∧ (∀ v ∈ cells ⟨1, 1, 1⟩, -320 < (fun _ : Vox => (0 : ℤ)) v) ∧
      segment_lung_mask ⟨1, 1, 1⟩ (fun _ => 0) true (0, 0, 0) = false :=
  ⟨by norm_num, by decide,
    c4_segment_lung_mask_empty ⟨1, 1, 1⟩ (fun _ => 0) (by norm_num)
      (by norm_num) (by norm_num) (by decide) (0, 0, 0)⟩
